import Mathlib

/-!
Verification of the curvature computations in the `curvature2025` notebooks
(`Extrinsic.ipynb` and `Intrinsic.ipynb`).

The notebooks are glue code over an external finite-element library: every
field is a pointwise expression built from library primitives (surface
gradient of the normal, determinant, trace, cross product, Riemann and
Christoffel operators on a metric), plus small "lifting" linear systems
(a mass matrix inverted on the free degrees of freedom).  The shallow
embedding below mirrors exactly that structure:

* pointwise formulas become functions on vectors in `Fin 3 → ℝ` and on
  `Matrix (Fin 3) (Fin 3) ℝ`; quantities that the external library
  evaluates (the surface gradient `W = Grad ν` at a point, the 2-jet of a
  metric `GridFunction`) are the inputs of those functions;
* the assembled lifting systems become finite-dimensional linear algebra
  over `Fin n`, with the NGSolve operator `M.mat.Inverse(V.FreeDofs())`
  modelled by a matrix that inverts the free block and vanishes elsewhere;
* mesh-level sums (the generalized Gauss curvature functional evaluated at
  the constant function `1`, the generalized Weingarten functional) become
  finite sums over abstract triangulation data.
-/

open Real
open scoped Matrix

noncomputable section

/-! ## Vector and matrix primitives (ngsolve `InnerProduct`, `Cross`,
`Normalize`, `OuterProduct`) -/

/-- Euclidean inner product of two 3-vectors (ngsolve `v * w` / `InnerProduct`). -/
def dot3 (v w : Fin 3 → ℝ) : ℝ := v 0 * w 0 + v 1 * w 1 + v 2 * w 2

/-- Cross product of two 3-vectors (ngsolve `Cross`). -/
def cross3 (v w : Fin 3 → ℝ) : Fin 3 → ℝ :=
  ![v 1 * w 2 - v 2 * w 1, v 2 * w 0 - v 0 * w 2, v 0 * w 1 - v 1 * w 0]

/-- Normalization of a 3-vector (ngsolve `Normalize`): divide by the Euclidean
length.  (Lean's convention `x / 0 = 0` is never used: all applications below
have nonzero length.) -/
def normalize3 (v : Fin 3 → ℝ) : Fin 3 → ℝ := fun i => v i / Real.sqrt (dot3 v v)

/-- Outer product of two 3-vectors as a 3x3 matrix (ngsolve `OuterProduct`). -/
def OuterProduct (v w : Fin 3 → ℝ) : Matrix (Fin 3) (Fin 3) ℝ :=
  Matrix.of fun i j => v i * w j

/-! ## The extrinsic curvature evaluator

In the notebooks `nu = specialcf.normal(3)` and `W = Grad(nu)` are evaluated
by the external library at each surface point; in this embedding the values
`nu` and `W` at the point under consideration are the inputs. -/

/-- `GaussCurvature()` from the notebooks: `Det(W + OuterProduct(nu, nu))`
where `W = Grad(nu)` is the surface gradient of the unit normal.  The
definition is a single determinant expression with no case split. -/
def GaussCurvature (W : Matrix (Fin 3) (Fin 3) ℝ) (nu : Fin 3 → ℝ) : ℝ :=
  (W + OuterProduct nu nu).det

/-- `ExtrinsicCurvatureSmooth` from `Extrinsic.ipynb`: given the pointwise
Weingarten tensor `W = Grad(nu)` and the normal `nu`, return
`(H, K, k1, k2)` with `H = 0.5 * Trace(W)`, `K = Det(W + nu nu^t)`,
`k1 = H + sqrt(H^2 - K)`, `k2 = H - sqrt(H^2 - K)`, exactly as in the code. -/
def ExtrinsicCurvatureSmooth (W : Matrix (Fin 3) (Fin 3) ℝ) (nu : Fin 3 → ℝ) :
    ℝ × ℝ × ℝ × ℝ :=
  let H := 0.5 * W.trace
  let K := (W + OuterProduct nu nu).det
  (H, K, H + Real.sqrt (H ^ 2 - K), H - Real.sqrt (H ^ 2 - K))

/-! ## The cylinder of radius `R`

Modelled from the spec: the notebook meshes `Cylinder((0,0,0), X, r=R, h)`
and lets the external library evaluate `specialcf.normal(3)` and `Grad(nu)`
on the curved mesh.  On the exact cylinder around the x-axis, at the point
with angular coordinate `θ`, the outward unit normal is `(0, cos θ, sin θ)`
and the surface gradient of the normal is `(1/R) t t^t` for the tangential
direction `t = (0, -sin θ, cos θ)`; the meshing and differentiation that
produce these values live in the external library, not in the repository. -/

/-- Outward unit normal of the radius-`R` cylinder around the x-axis. -/
def cylNu (θ : ℝ) : Fin 3 → ℝ := ![0, Real.cos θ, Real.sin θ]

/-- Unit tangent of the cylinder cross-section circle. -/
def cylTang (θ : ℝ) : Fin 3 → ℝ := ![0, -Real.sin θ, Real.cos θ]

/-- Exact value of `Grad(nu)` on the radius-`R` cylinder. -/
def cylW (R θ : ℝ) : Matrix (Fin 3) (Fin 3) ℝ :=
  (1 / R) • OuterProduct (cylTang θ) (cylTang θ)

/-! ## Mesh counts and the Euler characteristic -/

/-- Counts of a surface mesh, as read off `mesh.nface`, `mesh.nedge`,
`mesh.nv` in the notebooks. -/
structure MeshCounts where
  nface : ℕ
  nedge : ℕ
  nv : ℕ

/-- `EulerChar(mesh) = mesh.nface - mesh.nedge + mesh.nv` from
`Intrinsic.ipynb`. -/
def EulerChar (m : MeshCounts) : ℤ := (m.nface : ℤ) - m.nedge + m.nv

/-! ## Closed triangulated piecewise-smooth surfaces

Abstract data of a closed piecewise-smooth surface subdivided into curved
triangles, carrying exactly the per-element quantities that the assembled
linear functional of `GeneralizedGaussCurvatureExtrinsic` sums:
the element integral of the classical Gauss curvature
(`GaussCurvature()*v*ds`), the element-boundary integral of the geodesic
curvature (`-mu * edgecurve*v*ds(element_boundary=True)`), and the interior
angle of each triangle corner (`acos(vt1*vt2)` at the vertex degrees of
freedom).  The field `closed` records that on a closed surface every edge is
shared by exactly two triangles, so `3·#T = 2·#E`. -/
structure ClosedTriMesh where
  nT : ℕ
  nE : ℕ
  nV : ℕ
  intGauss : Fin nT → ℝ
  bndGeo : Fin nT → ℝ
  angle : Fin nT → Fin 3 → ℝ
  vertexOf : Fin nT → Fin 3 → Fin nV
  closed : 3 * nT = 2 * nE

/-- Counts of the triangulation (`nface = nT`). -/
def ClosedTriMesh.counts (m : ClosedTriMesh) : MeshCounts :=
  ⟨m.nT, m.nE, m.nV⟩

/-- Sum of all triangle corner angles meeting at the vertex `V`. -/
def angleSumAt (m : ClosedTriMesh) (V : Fin m.nV) : ℝ :=
  ∑ T, ∑ c, if m.vertexOf T c = V then m.angle T c else 0

/-- The angle deficit `Θ_V = 2π - Σ_T ∠_V^T` at a vertex, as assembled by the
code (`2π` added to each vertex degree of freedom, minus `acos(vt1*vt2)` per
incident corner). -/
def angleDeficit (m : ClosedTriMesh) (V : Fin m.nV) : ℝ :=
  2 * π - angleSumAt m V

/-- Value of the generalized Gauss curvature functional at the constant test
function `1`:
`K̃(1) = Σ_V Θ_V + Σ_T (∫_T K_T + ∫_∂T κ)`, the sum of all the entries of the
assembled vector `f.vec` of `GeneralizedGaussCurvatureExtrinsic`. -/
def KtildeTotal (m : ClosedTriMesh) : ℝ :=
  (∑ V, angleDeficit m V) + ∑ T, (m.intGauss T + m.bndGeo T)

/-- Elementwise exact Gauss-Bonnet theorem for one curved triangle `T`
(a disk, `χ(T) = 1`): `∫_T K + ∫_∂T κ + Σ_c (π - ∠_c) = 2π`.  This is the
classical smooth theorem, valid for the exact per-element quantities
computed by the external library. -/
def elementGaussBonnet (m : ClosedTriMesh) (T : Fin m.nT) : Prop :=
  m.intGauss T + m.bndGeo T + ∑ c, (π - m.angle T c) = 2 * π

/-- The boundary surface of a regular tetrahedron: four equilateral flat
triangles, each pair sharing an edge; all corner angles are `π/3`. -/
def tetra : ClosedTriMesh where
  nT := 4
  nE := 6
  nV := 4
  intGauss := fun _ => 0
  bndGeo := fun _ => 0
  angle := fun _ _ => π / 3
  vertexOf := ![![1, 2, 3], ![0, 2, 3], ![0, 1, 3], ![0, 1, 2]]
  closed := rfl

/-! ## The closed cylindrical box

Points of the nonsmooth closed cylinder of `Intrinsic.ipynb`
(`Cylinder((0,0,0), X, r=2, h=3)` with its two flat ends glued on): each
quadrature point of `Integrate(K * ds, cylmesh)` lies either on the
cylindrical side (radius `2`) or on one of the two flat caps. -/
inductive CylBoxPoint : Type
  | side (θ : ℝ)
  | cap (b : Bool)

/-- Outward unit normal of a flat cap of the cylindrical box: `±(1,0,0)`. -/
def capNu (b : Bool) : Fin 3 → ℝ := if b then ![1, 0, 0] else ![-1, 0, 0]

/-- Pointwise value of the naive classical `GaussCurvature()` integrand on
the cylindrical box: the library's `Grad(nu)` is `cylW 2 θ` on the side and
`0` on the flat caps. -/
def naiveGaussAt : CylBoxPoint → ℝ
  | CylBoxPoint.side θ => GaussCurvature (cylW 2 θ) (cylNu θ)
  | CylBoxPoint.cap b => GaussCurvature 0 (capNu b)

/-! ## The cube vertex (angle deficits of the nonsmooth cube) -/

/-- First tangent vector of each of the three faces meeting at a cube
vertex placed at the origin with edges along the coordinate axes
(`specialcf.VertexTangentialVectors` column 1). -/
def cubeTangentA : Fin 3 → Fin 3 → ℝ := ![![1, 0, 0], ![1, 0, 0], ![0, 1, 0]]

/-- Second tangent vector of each of the three faces meeting at the cube
vertex (`specialcf.VertexTangentialVectors` column 2). -/
def cubeTangentB : Fin 3 → Fin 3 → ℝ := ![![0, 1, 0], ![0, 0, 1], ![0, 0, 1]]

/-- Angle deficit at one cube vertex as the vertex terms of the generalized
curvature routines assemble it: `2π` minus the sum over the incident faces
of `acos(vt1 * vt2)`. -/
def cubeVertexDeficit : ℝ :=
  2 * π - ∑ f, Real.arccos (dot3 (cubeTangentA f) (cubeTangentB f))

/-- Mesh counts of the cube surface: 6 faces, 12 edges, 8 vertices. -/
def cubeCounts : MeshCounts := ⟨6, 12, 8⟩

/-! ## The lifting linear system of `GeneralizedGaussCurvature`

`GeneralizedGaussCurvature(parameter_domain_mesh, gh, lift_order)` builds
`V = H1(mesh, order=lift_order, dirichlet=".*")`, assembles the functional
`f` (vertex angle-deficit terms + element Riemann terms + element-boundary
geodesic terms), assembles the mass matrix `M`, and sets
`liftK.vec.data = M.mat.Inverse(V.FreeDofs()) * f.vec`.  The embedding keeps
the assembled objects: the mass matrix `M`, the boolean free-dof mask, and
the three assembled contributions to the right-hand side. -/

/-- Assembled data of one lifting solve: mass matrix, free-dof mask
(`dirichlet=".*"` marks every boundary degree of freedom as non-free), and
the three assembled contributions to the functional `K̃`. -/
structure LiftSystem (n : ℕ) where
  M : Matrix (Fin n) (Fin n) ℝ
  free : Fin n → Bool
  vertexPart : Fin n → ℝ
  elementPart : Fin n → ℝ
  edgePart : Fin n → ℝ

/-- The assembled right-hand side `f.vec`: for each basis function the value
`K̃(φ_i)`, the sum of its vertex, element and edge contributions. -/
def LiftSystem.rhs {n : ℕ} (S : LiftSystem n) : Fin n → ℝ :=
  fun i => S.vertexPart i + S.elementPart i + S.edgePart i

/-- Characterization of the vector the code returns: the mass-matrix rows of
the free degrees of freedom are satisfied, and every non-free (Dirichlet
boundary) degree of freedom is zero. -/
def IsCodeLift {n : ℕ} (S : LiftSystem n) (K : Fin n → ℝ) : Prop :=
  (∀ i, S.free i = true → (S.M *ᵥ K) i = S.rhs i) ∧
  (∀ i, S.free i = false → K i = 0)

/-- The NGSolve operator `M.mat.Inverse(freedofs)`: a matrix `B` supported on
the free rows and columns that inverts the free block of `M` from both
sides. -/
def IsFreeInverse {n : ℕ} (M : Matrix (Fin n) (Fin n) ℝ) (free : Fin n → Bool)
    (B : Matrix (Fin n) (Fin n) ℝ) : Prop :=
  (∀ i j, (free i = false ∨ free j = false) → B i j = 0) ∧
  (∀ i j, free i = true → free j = true → (B * M) i j = if i = j then (1 : ℝ) else 0) ∧
  (∀ i j, free i = true → free j = true → (M * B) i j = if i = j then (1 : ℝ) else 0)

/-- The vector the code computes:
`liftK.vec.data = M.mat.Inverse(V.FreeDofs()) * f.vec`. -/
def codeLift {n : ℕ} (S : LiftSystem n) (B : Matrix (Fin n) (Fin n) ℝ) : Fin n → ℝ :=
  B *ᵥ S.rhs

/-- A one-dimensional lift system with every degree of freedom free. -/
def S1 : LiftSystem 1 where
  M := Matrix.of ![![2]]
  free := fun _ => true
  vertexPart := ![6]
  elementPart := fun _ => 0
  edgePart := fun _ => 0

/-- The free inverse of the mass matrix of `S1`. -/
def B1 : Matrix (Fin 1) (Fin 1) ℝ := Matrix.of ![![1 / 2]]

/-- A two-dimensional lift system whose second degree of freedom is a
Dirichlet boundary one, with a nonzero functional entry there. -/
def S2 : LiftSystem 2 where
  M := 1
  free := ![true, false]
  vertexPart := ![1, 1]
  elementPart := fun _ => 0
  edgePart := fun _ => 0

/-- The free inverse of the identity mass matrix on the mask
`![true, false]`: invert the free block, vanish elsewhere. -/
def invFree2 : Matrix (Fin 2) (Fin 2) ℝ := Matrix.of ![![1, 0], ![0, 0]]

/-- A second two-dimensional lift system with a Dirichlet boundary degree of
freedom. -/
def S9 : LiftSystem 2 where
  M := 1
  free := ![true, false]
  vertexPart := ![3, 5]
  elementPart := fun _ => 0
  edgePart := fun _ => 0

/-! ## The intrinsic curvature evaluator

The intrinsic computation consumes only the metric `GridFunction` `gh`:
`R = gh.Operator("Riemann"); Kh = R[0,1,1,0]/Det(gh)`.  The library operator
implements the formulas displayed in `Intrinsic.ipynb`:
`Γ_ijl = (∂_i g_jl + ∂_j g_il - ∂_l g_ij)/2`, `Γ^k_ij = g^{kl} Γ_ijl`, and
`R_ijkl = ∂_i Γ_jkl - ∂_j Γ_ikl + Γ^p_ik Γ_jpl - Γ^p_jk Γ_ipl`.
At a point these depend only on the 2-jet of the metric, which is the input
of the embedding: no normal vector and no embedding data occur in it. -/

/-- The 2-jet of a metric field at a point of the flat 2D parameter domain:
the metric values `g i j`, the first derivatives `dg k i j` (derivative of
`g i j` in the `k`-th parameter direction) and the second derivatives
`ddg m l i j`. -/
structure MetricJet where
  g : Fin 2 → Fin 2 → ℝ
  dg : Fin 2 → Fin 2 → Fin 2 → ℝ
  ddg : Fin 2 → Fin 2 → Fin 2 → Fin 2 → ℝ

/-- Christoffel symbol of the first kind,
`Γ_ijl = (∂_i g_jl + ∂_j g_il - ∂_l g_ij)/2`. -/
def christoffelFst (J : MetricJet) (i j l : Fin 2) : ℝ :=
  (J.dg i j l + J.dg j i l - J.dg l i j) / 2

/-- Derivative `∂_m Γ_jkl = (∂_m ∂_j g_kl + ∂_m ∂_k g_jl - ∂_m ∂_l g_jk)/2`. -/
def dChristoffelFst (J : MetricJet) (m j k l : Fin 2) : ℝ :=
  (J.ddg m j k l + J.ddg m k j l - J.ddg m l j k) / 2

/-- `Det(g)` of a 2x2 metric. -/
def det2 (g : Fin 2 → Fin 2 → ℝ) : ℝ := g 0 0 * g 1 1 - g 0 1 * g 1 0

/-- Inverse metric `g^{kl}` of a 2x2 metric. -/
def ginv2 (J : MetricJet) : Fin 2 → Fin 2 → ℝ :=
  fun k l => ![![J.g 1 1, -J.g 0 1], ![-J.g 1 0, J.g 0 0]] k l / det2 J.g

/-- Christoffel symbol of the second kind, `Γ^k_ij = g^{kl} Γ_ijl`. -/
def christoffelSnd (J : MetricJet) (k i j : Fin 2) : ℝ :=
  ∑ l, ginv2 J k l * christoffelFst J i j l

/-- The Riemann tensor
`R_ijkl = ∂_i Γ_jkl - ∂_j Γ_ikl + Γ^p_ik Γ_jpl - Γ^p_jk Γ_ipl`
(the `gh.Operator("Riemann")` of the library, as displayed in the
notebook). -/
def riemann (J : MetricJet) (i j k l : Fin 2) : ℝ :=
  dChristoffelFst J i j k l - dChristoffelFst J j i k l
    + (∑ p, christoffelSnd J p i k * christoffelFst J j p l)
    - ∑ p, christoffelSnd J p j k * christoffelFst J i p l

/-- The intrinsic Gauss curvature of the notebook:
`Kh = R[0,1,1,0] / Det(gh)`, a function of the metric jet alone. -/
def KhIntrinsic (J : MetricJet) : ℝ := riemann J 0 1 1 0 / det2 J.g

/-- The factor `x - x³/3` appearing in the exact metric of the notebook's
piecewise-flat example. -/
def aFun (s : ℝ) : ℝ := s - s ^ 3 / 3

/-- The exact metric `gexact` of `Intrinsic.ipynb`:
`[[1 + (x - x³/3)², (x - x³/3)(y - y³/3)], [∙, 1 + (y - y³/3)²]]`. -/
def gexact (x y : ℝ) : Fin 2 → Fin 2 → ℝ :=
  ![![1 + aFun x ^ 2, aFun x * aFun y], ![aFun x * aFun y, 1 + aFun y ^ 2]]

/-- The exact Gauss curvature `Kexact` of `Intrinsic.ipynb`:
`81 (1-x²)(1-y²) / (9 + x²(x²-3)² + y²(y²-3)²)²`. -/
def Kexact (x y : ℝ) : ℝ :=
  81 * (1 - x ^ 2) * (1 - y ^ 2) /
    (9 + x ^ 2 * (x ^ 2 - 3) ^ 2 + y ^ 2 * (y ^ 2 - 3) ^ 2) ^ 2

/-- The 2-jet of `gexact` at the origin: `g` is the identity, all first
derivatives vanish, and the only nonzero second derivatives are
`∂x∂x g00 = 2`, `∂y∂y g11 = 2` and the mixed `∂x∂y g01 = ∂x∂y g10 = 1`
(each entry is certified against `gexact` by Mathlib derivatives in
`intrinsic_curvature_metric_only` below). -/
def gexactJetOrigin : MetricJet where
  g := ![![1, 0], ![0, 1]]
  dg := fun _ _ _ => 0
  ddg := ![![![![2, 0], ![0, 0]], ![![0, 1], ![1, 0]]],
           ![![![0, 1], ![1, 0]], ![![0, 0], ![0, 2]]]]

/-! ## The integrands assembled by `GeneralizedGaussCurvature`

The three contributions of the functional `K̃` are pointwise expressions in
the metric `gh` and reference-domain data of the flat 2D parameter mesh
(edge tangents `t`, edge normals `n`, vertex tangent pairs `vt1, vt2`, the
edge curvature `∇_t t`); no surface normal and no embedding enters any of
them. -/

/-- Euclidean inner product of two 2-vectors (`vt1*vt2` in the code). -/
def dot2 (v w : Fin 2 → ℝ) : ℝ := v 0 * w 0 + v 1 * w 1

/-- Matrix-vector action `gh * v` of a 2x2 metric. -/
def gApply (g : Fin 2 → Fin 2 → ℝ) (v : Fin 2 → ℝ) : Fin 2 → ℝ :=
  fun i => g i 0 * v 0 + g i 1 * v 1

/-- The per-vertex angle-deficit integrand of `GeneralizedGaussCurvature`:
`acos(vt1*vt2 / sqrt(vt1*vt1) / sqrt(vt2*vt2))
 - acos(gh*vt1*vt2 / sqrt(gh*vt1*vt1) / sqrt(gh*vt2*vt2))`,
the Euclidean angle of the two vertex tangents minus their angle in the
metric `gh`. -/
def angldeficit (g : Fin 2 → Fin 2 → ℝ) (vt1 vt2 : Fin 2 → ℝ) : ℝ :=
  Real.arccos (dot2 vt1 vt2 / Real.sqrt (dot2 vt1 vt1) / Real.sqrt (dot2 vt2 vt2)) -
    Real.arccos (dot2 (gApply g vt1) vt2 / Real.sqrt (dot2 (gApply g vt1) vt1) /
      Real.sqrt (dot2 (gApply g vt2) vt2))

/-- The contraction `gh.Operator("christoffel2")[a, b, c] = Σ Γ^k_ij a_i b_j c_k`
of the library's Christoffel tensor of the second kind. -/
def christoffel2Contract (J : MetricJet) (a b c : Fin 2 → ℝ) : ℝ :=
  ∑ i, ∑ j, ∑ k, a i * b j * c k * christoffelSnd J k i j

/-- The per-edge geodesic-curvature integrand of `GeneralizedGaussCurvature`:
`sqrt(Det(gh)) / (t * (gh * t)) * (edgecurv * n + christoffel2[t, t, n])`
with `edgecurv = ∇_t t` supplied by the library. -/
def geodesicurv (J : MetricJet) (t nrm edgecurv : Fin 2 → ℝ) : ℝ :=
  Real.sqrt (det2 J.g) / dot2 t (gApply J.g t) *
    (dot2 edgecurv nrm + christoffel2Contract J t t nrm)

/-- The per-element curvature integrand of `GeneralizedGaussCurvature`:
`1 / sqrt(Det(gh)) * gh.Operator("Riemann")[0, 1, 1, 0]`. -/
def elementcurv (J : MetricJet) : ℝ :=
  1 / Real.sqrt (det2 J.g) * riemann J 0 1 1 0

/-- The 2-jet of the flat Euclidean metric. -/
def euclidJet : MetricJet where
  g := ![![1, 0], ![0, 1]]
  dg := fun _ _ _ => 0
  ddg := fun _ _ _ _ => 0

/-! ## The generalized Weingarten tensor

At an interior edge the normals `ν_{T±}` of the two adjacent elements and
their outward co-normals `μ_± = Cross(ν_±, t_±)` all lie in the plane
orthogonal to the edge tangent; `dot3`, `cross3` and `arccos` are invariant
under rotations, so each edge is embedded in the adapted frame whose edge
tangent is `(0,0,1)` as seen from the `+` side (and `(0,0,-1)` from the `-`
side, the boundary orientations of the two elements being opposite) and
whose normals are `(cos θ_±, sin θ_±, 0)`. -/

/-- Data of one interior edge: the normal angles `θ_±` of the two adjacent
elements in the plane orthogonal to the edge, and the values `σ_μμ` of the
test tensor seen from either side. -/
structure InteriorEdge where
  thetaP : ℝ
  thetaM : ℝ
  sigP : ℝ
  sigM : ℝ

/-- Normal of the `+` element at the edge. -/
def nuPlus (e : InteriorEdge) : Fin 3 → ℝ := ![Real.cos e.thetaP, Real.sin e.thetaP, 0]

/-- Normal of the `-` element at the edge. -/
def nuMinus (e : InteriorEdge) : Fin 3 → ℝ := ![Real.cos e.thetaM, Real.sin e.thetaM, 0]

/-- Edge tangent as oriented by the `+` element. -/
def tangPlus : Fin 3 → ℝ := ![0, 0, 1]

/-- Edge tangent as oriented by the `-` element (opposite). -/
def tangMinus : Fin 3 → ℝ := ![0, 0, -1]

/-- Outward co-normal `mu = Cross(nu, t)` of the `+` element. -/
def muPlus (e : InteriorEdge) : Fin 3 → ℝ := cross3 (nuPlus e) tangPlus

/-- Outward co-normal `mu = Cross(nu, t)` of the `-` element. -/
def muMinus (e : InteriorEdge) : Fin 3 → ℝ := cross3 (nuMinus e) tangMinus

/-- The averaged normal `nu_avg = (ν_+ + ν_-)/2` set by the code on the
facet space via `nu_avg.Set(nu, dual=True)`. -/
def nuAvgVec (e : InteriorEdge) : Fin 3 → ℝ := fun i => (nuPlus e i + nuMinus e i) / 2

/-- The edge contribution of the spec's per-edge definition:
`∠ν · σ_μμ` with `∠ν = acos(ν_+ · ν_-)` (by continuity `σ_μμ` is
single-valued on the edge; the `+` side value is used). -/
def specEdgeTerm (e : InteriorEdge) : ℝ :=
  Real.arccos (dot3 (nuPlus e) (nuMinus e)) * e.sigP

/-- The edge contribution of the element-boundary form the code implements:
`(π/2 - acos(Normalize(nu_avg) * mu)) * tau[mu, mu]` accumulated from both
incident elements. -/
def codeEdgeTerm (e : InteriorEdge) : ℝ :=
  (π / 2 - Real.arccos (dot3 (normalize3 (nuAvgVec e)) (muPlus e))) * e.sigP +
    (π / 2 - Real.arccos (dot3 (normalize3 (nuAvgVec e)) (muMinus e))) * e.sigM

/-- A piecewise-smooth surface as the generalized Weingarten functional sees
it: the element terms `∫_T ∇ν_T : σ` and the interior edge data. -/
structure WeingartenMesh where
  nT : ℕ
  nE : ℕ
  elemTerm : Fin nT → ℝ
  edges : Fin nE → InteriorEdge

/-- The spec's edge-sum form of the generalized Weingarten functional:
`Σ_T ∫_T ∇ν_T:σ + Σ_E ∠ν · σ_μμ`. -/
def specWeingartenForm (m : WeingartenMesh) : ℝ :=
  (∑ T, m.elemTerm T) + ∑ e, specEdgeTerm (m.edges e)

/-- The element-boundary form assembled by `GeneralizedWeingarten`:
`Σ_T (∫_T ∇ν_T:σ + ∫_∂T (π/2 - acos({ν}·μ)) σ_μμ)`. -/
def codeWeingartenForm (m : WeingartenMesh) : ℝ :=
  (∑ T, m.elemTerm T) + ∑ e, codeEdgeTerm (m.edges e)

/-- A concave edge: the normals turn by `-π/2` from the `-` side to the `+`
side, with continuous `σ_μμ = 1`. -/
def concaveEdge : InteriorEdge := ⟨0, π / 2, 1, 1⟩

/-- A one-edge surface containing only the concave edge. -/
def Wcex : WeingartenMesh := ⟨0, 1, fun T => T.elim0, fun _ => concaveEdge⟩

/-- A flat edge (equal normals on both sides, continuous `σ_μμ = 1`). -/
def flatEdge : InteriorEdge := ⟨0, 0, 1, 1⟩

/-- A one-edge surface containing only the flat edge. -/
def Wok : WeingartenMesh := ⟨0, 1, fun T => T.elim0, fun _ => flatEdge⟩

/-! # Theorems -/

/-- Claim C3: `ExtrinsicCurvatureSmooth` returns exactly the four fields
`H = trace(W)/2`, `K = det(W + ν⊗ν)` and the principal curvatures
`k1,2 = H ± sqrt(H² - K)` computed from the surface gradient `W` of the
normal `ν`. -/
theorem extrinsic_curvature_fields (W : Matrix (Fin 3) (Fin 3) ℝ) (nu : Fin 3 → ℝ) :
    ExtrinsicCurvatureSmooth W nu =
      (W.trace / 2, (W + OuterProduct nu nu).det,
        W.trace / 2 + Real.sqrt ((W.trace / 2) ^ 2 - (W + OuterProduct nu nu).det),
        W.trace / 2 - Real.sqrt ((W.trace / 2) ^ 2 - (W + OuterProduct nu nu).det)) := by
  have h : (0.5 : ℝ) * W.trace = W.trace / 2 := by ring
  simp only [ExtrinsicCurvatureSmooth, h]

/-- Claim C8: wherever the Weingarten tensor `W = ∇_S ν` vanishes, the Gauss
curvature formula `K = det(W + ν⊗ν)` evaluates to exactly `0` for any unit
normal `ν`; `GaussCurvature` is a single branch-free determinant formula. -/
theorem flat_region_gauss_zero (W : Matrix (Fin 3) (Fin 3) ℝ) (nu : Fin 3 → ℝ)
    (hW : W = 0) (hnu : dot3 nu nu = 1) : GaussCurvature W nu = 0 := by
  subst hW
  simp only [GaussCurvature, zero_add, Matrix.det_fin_three, OuterProduct, Matrix.of_apply]
  ring

/-- Witness for `flat_region_gauss_zero` at the concrete flat point with
normal `(1,0,0)`. -/
theorem flat_region_gauss_zero_witness :
    (0 : Matrix (Fin 3) (Fin 3) ℝ) = 0 ∧ dot3 ![1, 0, 0] ![1, 0, 0] = 1 ∧
      GaussCurvature 0 ![1, 0, 0] = 0 := by
  have h1 : dot3 ![(1 : ℝ), 0, 0] ![1, 0, 0] = 1 := by norm_num [dot3]
  exact ⟨rfl, h1, flat_region_gauss_zero 0 ![1, 0, 0] rfl h1⟩

/-- Claim C10: wherever `H² ≥ K`, the two principal curvatures returned by
`ExtrinsicCurvatureSmooth` are the two roots of `λ² - 2Hλ + K = 0` in
decreasing order: `k1 ≥ k2`, `k1 + k2 = 2H`, `k1·k2 = K`. -/
theorem principal_curvature_roots (W : Matrix (Fin 3) (Fin 3) ℝ) (nu : Fin 3 → ℝ)
    (H K k1 k2 : ℝ) (hEq : ExtrinsicCurvatureSmooth W nu = (H, K, k1, k2))
    (h : K ≤ H ^ 2) :
    k1 + k2 = 2 * H ∧ k1 * k2 = K ∧ k2 ≤ k1 ∧
      k1 ^ 2 - 2 * H * k1 + K = 0 ∧ k2 ^ 2 - 2 * H * k2 + K = 0 := by
  simp only [ExtrinsicCurvatureSmooth, Prod.mk.injEq] at hEq
  obtain ⟨hH, hK, hk1, hk2⟩ := hEq
  have hs : Real.sqrt (H ^ 2 - K) ^ 2 = H ^ 2 - K := by
    rw [Real.sq_sqrt (by linarith)]
  have hsnn : 0 ≤ Real.sqrt (H ^ 2 - K) := Real.sqrt_nonneg _
  subst hH hK
  constructor
  · rw [← hk1, ← hk2]; ring
  refine ⟨?_, ?_, ?_, ?_⟩
  · rw [← hk1, ← hk2]; nlinarith [hs]
  · rw [← hk1, ← hk2]; nlinarith [hsnn]
  · rw [← hk1]; nlinarith [hs]
  · rw [← hk2]; nlinarith [hs]

/-- Witness for `principal_curvature_roots` at the flat point `W = 0`,
`ν = (1,0,0)`, where `H = K = 0` and both principal curvatures vanish. -/
theorem principal_curvature_roots_witness :
    ExtrinsicCurvatureSmooth 0 ![1, 0, 0] = (0, 0, 0, 0) ∧ (0 : ℝ) ≤ 0 ^ 2 ∧
      ((0 : ℝ) + 0 = 2 * 0 ∧ (0 : ℝ) * 0 = 0 ∧ (0 : ℝ) ≤ 0 ∧
        (0 : ℝ) ^ 2 - 2 * 0 * 0 + 0 = 0 ∧ (0 : ℝ) ^ 2 - 2 * 0 * 0 + 0 = 0) := by
  have hdet : ((0 : Matrix (Fin 3) (Fin 3) ℝ) + OuterProduct ![1, 0, 0] ![1, 0, 0]).det = 0 := by
    simp only [zero_add, Matrix.det_fin_three, OuterProduct, Matrix.of_apply]
    norm_num
  have hEq : ExtrinsicCurvatureSmooth 0 ![1, 0, 0] = (0, 0, 0, 0) := by
    simp only [ExtrinsicCurvatureSmooth, hdet, Matrix.trace_zero, mul_zero]
    norm_num
  exact ⟨hEq, by norm_num,
    principal_curvature_roots 0 ![1, 0, 0] 0 0 0 0 hEq (by norm_num)⟩

/-- Claim C5 (amended): on the radius-`R` cylinder the code returns
`H = 1/(2R)`, `K = 0`, and principal curvatures in decreasing order
`k1 = 1/R`, `k2 = 0` (the first returned principal curvature is `1/R`,
the second is the zero one). -/
theorem cylinder_curvatures (R θ : ℝ) (hR : 0 < R) :
    ExtrinsicCurvatureSmooth (cylW R θ) (cylNu θ) = (1 / (2 * R), 0, 1 / R, 0) := by
  have hsc := Real.sin_sq_add_cos_sq θ
  have htr : (cylW R θ).trace = 1 / R := by
    simp only [cylW, OuterProduct, cylTang, Matrix.trace_fin_three, Matrix.smul_apply,
      Matrix.of_apply, smul_eq_mul, Matrix.cons_val_zero, Matrix.cons_val_one, Matrix.head_cons,
      Matrix.cons_val_two, Matrix.tail_cons]
    linear_combination (1 / R) * hsc
  have hdet : (cylW R θ + OuterProduct (cylNu θ) (cylNu θ)).det = 0 := by
    simp only [Matrix.det_fin_three, Matrix.add_apply, cylW, OuterProduct, cylNu, cylTang,
      Matrix.smul_apply, Matrix.of_apply, smul_eq_mul, Matrix.cons_val_zero, Matrix.cons_val_one,
      Matrix.head_cons, Matrix.cons_val_two, Matrix.tail_cons]
    ring
  have hH : (0.5 : ℝ) * (cylW R θ).trace = 1 / (2 * R) := by rw [htr]; ring
  have hs : Real.sqrt ((1 / (2 * R)) ^ 2 - 0) = 1 / (2 * R) := by
    rw [sub_zero, Real.sqrt_sq (by positivity)]
  simp only [ExtrinsicCurvatureSmooth, hdet, hH, hs, Prod.mk.injEq]
  refine ⟨trivial, trivial, ?_, ?_⟩
  · field_simp
    norm_num
  · ring

/-- Counterexample to claim C5 as stated: on the unit cylinder the code does
NOT return `(H, K, k1, k2) = (1/2, 0, 0, 1)`; the first returned principal
curvature is `1`, not `0` (the actual value is `(1/2, 0, 1, 0)`). -/
theorem cylinder_principal_order_counterexample :
    ExtrinsicCurvatureSmooth (cylW 1 0) (cylNu 0) ≠ (1 / (2 * 1), 0, 0, 1 / 1) := by
  have htr : (cylW 1 0).trace = 1 := by
    simp only [cylW, OuterProduct, cylTang, Matrix.trace_fin_three, Matrix.smul_apply,
      Matrix.of_apply, smul_eq_mul, Matrix.cons_val_zero, Matrix.cons_val_one, Matrix.head_cons,
      Matrix.cons_val_two, Matrix.tail_cons, Real.sin_zero, Real.cos_zero]
    norm_num
  have hdet : (cylW 1 0 + OuterProduct (cylNu 0) (cylNu 0)).det = 0 := by
    simp only [Matrix.det_fin_three, Matrix.add_apply, cylW, OuterProduct, cylNu, cylTang,
      Matrix.smul_apply, Matrix.of_apply, smul_eq_mul, Matrix.cons_val_zero, Matrix.cons_val_one,
      Matrix.head_cons, Matrix.cons_val_two, Matrix.tail_cons]
    ring
  have hval : ExtrinsicCurvatureSmooth (cylW 1 0) (cylNu 0) = (1 / 2, 0, 1, 0) := by
    simp only [ExtrinsicCurvatureSmooth, htr, hdet, Prod.mk.injEq]
    rw [show ((0.5 : ℝ) * 1) ^ 2 - 0 = (1 / 2) ^ 2 by norm_num, Real.sqrt_sq (by norm_num)]
    norm_num
  rw [hval]
  intro h
  simp only [Prod.mk.injEq] at h
  exact absurd h.2.2.1 one_ne_zero

/-- Witness for `cylinder_curvatures` at `R = 1`, `θ = 0`. -/
theorem cylinder_curvatures_witness :
    (0 : ℝ) < 1 ∧ ExtrinsicCurvatureSmooth (cylW 1 0) (cylNu 0) = (1 / (2 * 1), 0, 1 / 1, 0) :=
  ⟨by norm_num, cylinder_curvatures 1 0 (by norm_num)⟩

/-- Claim C7: at a cube vertex the vertex terms of the generalized curvature
routines give the angle deficit `2π - 3·(π/2) = π/2`; summed over the 8
vertices this is `4π = 2π·χ` with `χ = EulerChar = 2` for the cube surface. -/
theorem cube_angle_deficit :
    cubeVertexDeficit = π / 2 ∧ (8 : ℝ) * cubeVertexDeficit = 4 * π ∧
      (4 : ℝ) * π = 2 * π * (EulerChar cubeCounts : ℝ) := by
  have hdot : ∀ f : Fin 3, dot3 (cubeTangentA f) (cubeTangentB f) = 0 := by
    intro f; fin_cases f <;> norm_num [dot3, cubeTangentA, cubeTangentB]
  have hdef : cubeVertexDeficit = π / 2 := by
    simp only [cubeVertexDeficit, Fin.sum_univ_three, hdot, Real.arccos_zero]
    ring
  have hchi : EulerChar cubeCounts = 2 := by decide
  refine ⟨hdef, by rw [hdef]; ring, ?_⟩
  rw [hchi]
  push_cast
  ring

/-- The naive classical Gauss curvature integrand vanishes identically on the
closed cylindrical box: the cylindrical side and the flat caps both have
`det(W + ν⊗ν) = 0` pointwise. -/
theorem naiveGaussAt_eq_zero (p : CylBoxPoint) : naiveGaussAt p = 0 := by
  cases p with
  | side θ =>
      simp only [naiveGaussAt, GaussCurvature, Matrix.det_fin_three, Matrix.add_apply, cylW,
        OuterProduct, cylNu, cylTang, Matrix.smul_apply, Matrix.of_apply, smul_eq_mul,
        Matrix.cons_val_zero, Matrix.cons_val_one, Matrix.head_cons, Matrix.cons_val_two,
        Matrix.tail_cons]
      ring
  | cap b =>
      cases b <;>
        · simp only [naiveGaussAt, GaussCurvature, capNu, Bool.false_eq_true, if_true, if_false,
            zero_add, Matrix.det_fin_three, OuterProduct, Matrix.of_apply, Matrix.cons_val_zero,
            Matrix.cons_val_one, Matrix.head_cons, Matrix.cons_val_two, Matrix.tail_cons]
          ring

/-- Claim C1: (i) for every closed triangulated piecewise-smooth surface whose
elements satisfy the exact smooth Gauss-Bonnet theorem, any lifted curvature
`K̃_h` (coefficient vector `k` solving the mass system `M k = f` whose
right-hand side assembles the generalized curvature functional, so that
`∫ K̃_h = Σ_i (M k)_i` by the Lagrange partition of unity and
`Σ_i f_i = K̃(1) = KtildeTotal`) integrates to exactly `2π · EulerChar`;
(ii) every quadrature of the naive classical `GaussCurvature()` over the
closed cylindrical box evaluates to `0`, which differs from `2π·χ = 2π·2`. -/
theorem gauss_bonnet_generalized_and_naive_failure :
    (∀ (m : ClosedTriMesh) (n : ℕ) (M : Matrix (Fin n) (Fin n) ℝ) (k f : Fin n → ℝ),
        (∀ T, elementGaussBonnet m T) → M *ᵥ k = f → (∑ i, f i) = KtildeTotal m →
        (∑ i, (M *ᵥ k) i) = 2 * π * (EulerChar m.counts : ℝ)) ∧
    (∀ (nq : ℕ) (w : Fin nq → ℝ) (p : Fin nq → CylBoxPoint),
        (∑ i, w i * naiveGaussAt (p i)) = 0) ∧
    (0 : ℝ) ≠ 2 * π * 2 := by
  refine ⟨?_, ?_, ?_⟩
  · intro m n M k f hGB hMk hsum
    rw [hMk, hsum]
    have hangles : (∑ V, angleSumAt m V) = ∑ T, ∑ c, m.angle T c := by
      unfold angleSumAt
      rw [Finset.sum_comm]
      refine Finset.sum_congr rfl fun T _ => ?_
      rw [Finset.sum_comm]
      refine Finset.sum_congr rfl fun c _ => ?_
      simp [Finset.sum_ite_eq]
    have helem : (∑ T, (m.intGauss T + m.bndGeo T)) = ∑ T, (-π + ∑ c, m.angle T c) := by
      refine Finset.sum_congr rfl fun T _ => ?_
      have h := hGB T
      unfold elementGaussBonnet at h
      have hc : (∑ c : Fin 3, (π - m.angle T c)) = 3 * π - ∑ c, m.angle T c := by
        rw [Finset.sum_sub_distrib]
        simp [Finset.sum_const]
      rw [hc] at h
      linarith
    have hclosed : (3 : ℝ) * m.nT = 2 * m.nE := by exact_mod_cast m.closed
    have hchi : (EulerChar m.counts : ℝ) = (m.nT : ℝ) - m.nE + m.nV := by
      simp only [EulerChar, ClosedTriMesh.counts]
      push_cast
      ring
    unfold KtildeTotal angleDeficit
    rw [Finset.sum_sub_distrib, hangles, helem, Finset.sum_add_distrib, hchi]
    simp only [Finset.sum_const, Finset.card_univ, Fintype.card_fin, nsmul_eq_mul]
    linear_combination (-π) * hclosed
  · intro nq w p
    refine Finset.sum_eq_zero fun i _ => ?_
    rw [naiveGaussAt_eq_zero, mul_zero]
  · intro h
    have := Real.pi_pos
    linarith

/-- Witness for `gauss_bonnet_generalized_and_naive_failure` on the
tetrahedron surface with the one-dimensional lift system `M = (1)`,
`k = f = (KtildeTotal tetra)`. -/
theorem gauss_bonnet_generalized_witness :
    (∀ T, elementGaussBonnet tetra T) ∧
    ((1 : Matrix (Fin 1) (Fin 1) ℝ) *ᵥ ![KtildeTotal tetra] = ![KtildeTotal tetra]) ∧
    ((∑ i, (![KtildeTotal tetra]) i) = KtildeTotal tetra) ∧
    (∑ i, ((1 : Matrix (Fin 1) (Fin 1) ℝ) *ᵥ ![KtildeTotal tetra]) i) =
      2 * π * (EulerChar tetra.counts : ℝ) := by
  have hGB : ∀ T, elementGaussBonnet tetra T := by
    intro T
    simp only [elementGaussBonnet, tetra, Fin.sum_univ_three]
    ring
  have hMk : (1 : Matrix (Fin 1) (Fin 1) ℝ) *ᵥ ![KtildeTotal tetra] = ![KtildeTotal tetra] :=
    Matrix.one_mulVec _
  have hsum : (∑ i, (![KtildeTotal tetra]) i) = KtildeTotal tetra := by
    simp
  exact ⟨hGB, hMk, hsum,
    gauss_bonnet_generalized_and_naive_failure.1 tetra 1 1 ![KtildeTotal tetra]
      ![KtildeTotal tetra] hGB hMk hsum⟩

/-- A free inverse annihilates every vector on the non-free rows. -/
theorem freeInverse_mulVec_boundary {n : ℕ} {M : Matrix (Fin n) (Fin n) ℝ}
    {free : Fin n → Bool} {B : Matrix (Fin n) (Fin n) ℝ}
    (hB : IsFreeInverse M free B) (v : Fin n → ℝ) (i : Fin n)
    (hi : free i = false) : (B *ᵥ v) i = 0 := by
  simp only [Matrix.mulVec, Matrix.dotProduct]
  exact Finset.sum_eq_zero fun j _ => by rw [hB.1 i j (Or.inl hi), zero_mul]

/-- Applying `M` after a free inverse reproduces the vector on the free
rows. -/
theorem freeInverse_mulVec_free {n : ℕ} {M : Matrix (Fin n) (Fin n) ℝ}
    {free : Fin n → Bool} {B : Matrix (Fin n) (Fin n) ℝ}
    (hB : IsFreeInverse M free B) (v : Fin n → ℝ) (i : Fin n)
    (hi : free i = true) : (M *ᵥ (B *ᵥ v)) i = v i := by
  rw [Matrix.mulVec_mulVec]
  simp only [Matrix.mulVec, Matrix.dotProduct]
  have hterm : ∀ j : Fin n, (M * B) i j * v j = if i = j then v j else 0 := by
    intro j
    by_cases hj : free j = true
    · rw [hB.2.2 i j hi hj, ite_mul, one_mul, zero_mul]
    · have hj' : free j = false := by revert hj; cases free j <;> simp
      have hz : (M * B) i j = 0 := by
        rw [Matrix.mul_apply]
        exact Finset.sum_eq_zero fun l _ => by rw [hB.1 l j (Or.inr hj'), mul_zero]
      have hij : i ≠ j := fun h => by subst h; simp [hi] at hj'
      rw [hz, zero_mul, if_neg hij]
  rw [Finset.sum_congr rfl fun j _ => hterm j]
  simp [Finset.sum_ite_eq]

/-- Any vector satisfying the free rows and vanishing on the boundary rows is
the one the code computes. -/
theorem codeLift_unique {n : ℕ} {S : LiftSystem n} {B : Matrix (Fin n) (Fin n) ℝ}
    (hB : IsFreeInverse S.M S.free B) (K : Fin n → ℝ) (hK : IsCodeLift S K) :
    K = codeLift S B := by
  funext i
  by_cases hi : S.free i = true
  · have step1 : K i = ∑ j, (B * S.M) i j * K j := by
      have hterm : ∀ j : Fin n, (B * S.M) i j * K j = if i = j then K j else 0 := by
        intro j
        by_cases hj : S.free j = true
        · rw [hB.2.1 i j hi hj, ite_mul, one_mul, zero_mul]
        · have hj' : S.free j = false := by revert hj; cases S.free j <;> simp
          have hij : i ≠ j := fun h => by subst h; simp [hi] at hj'
          rw [hK.2 j hj', mul_zero, if_neg hij]
      rw [Finset.sum_congr rfl fun j _ => hterm j]
      simp [Finset.sum_ite_eq]
    have step2 : (∑ j, (B * S.M) i j * K j) = ∑ l, B i l * (S.M *ᵥ K) l := by
      simp only [Matrix.mul_apply, Matrix.mulVec, Matrix.dotProduct, Finset.sum_mul, Finset.mul_sum]
      rw [Finset.sum_comm]
      exact Finset.sum_congr rfl fun l _ => Finset.sum_congr rfl fun j _ => by ring
    have step3 : (∑ l, B i l * (S.M *ᵥ K) l) = ∑ l, B i l * S.rhs l := by
      refine Finset.sum_congr rfl fun l _ => ?_
      by_cases hl : S.free l = true
      · rw [hK.1 l hl]
      · have hl' : S.free l = false := by revert hl; cases S.free l <;> simp
        rw [hB.1 i l (Or.inr hl'), zero_mul, zero_mul]
    rw [step1, step2, step3]
    simp only [codeLift, Matrix.mulVec, Matrix.dotProduct]
  · have hi' : S.free i = false := by revert hi; cases S.free i <;> simp
    rw [hK.2 i hi']
    exact (freeInverse_mulVec_boundary hB S.rhs i hi').symm

/-- The matrix `invFree2` is a free inverse for any of the concrete
two-dimensional systems with identity mass matrix and mask
`![true, false]`. -/
theorem one_invFree2 (S : LiftSystem 2) (hM : S.M = 1)
    (hfree : S.free = ![true, false]) : IsFreeInverse S.M S.free invFree2 := by
  refine ⟨?_, ?_, ?_⟩
  · intro i j h
    fin_cases i <;> fin_cases j <;>
      simp_all [invFree2, hfree]
  · intro i j hi hj
    fin_cases i <;> fin_cases j <;>
      simp_all [invFree2, hM, hfree, Matrix.mul_one]
  · intro i j hi hj
    fin_cases i <;> fin_cases j <;>
      simp_all [invFree2, hM, hfree, Matrix.one_mul]

/-- Claim C2 (amended): `GeneralizedGaussCurvature` assembles the functional
`K̃(u) = Σ_V Θ_V u(V) + Σ_T (∫_T K_T u + ∫_∂T κ u)` from the per-vertex
angle-deficit integrand, the per-element Riemann curvature integrand and the
per-edge geodesic-curvature integrand — all functions of the metric `gh`
(its 2-jet) and reference-domain data alone, and all vanishing on the flat
Euclidean metric (first three conjuncts) — and lifts it by solving the
mass-matrix system whose right-hand side is the sum of the assembled vertex,
element and edge contributions, for all FREE (non-Dirichlet) basis
functions: the vector the code returns satisfies exactly the free rows,
vanishes on the Dirichlet boundary degrees of freedom, and is the unique
such vector (last conjunct). -/
theorem lift_free_rows_unique :
    (∀ vt1 vt2 : Fin 2 → ℝ, angldeficit euclidJet.g vt1 vt2 = 0) ∧
    elementcurv euclidJet = 0 ∧
    (∀ t nrm : Fin 2 → ℝ, geodesicurv euclidJet t nrm 0 = 0) ∧
    (∀ (n : ℕ) (S : LiftSystem n) (B : Matrix (Fin n) (Fin n) ℝ),
        IsFreeInverse S.M S.free B →
        (∀ i, S.free i = true →
            (S.M *ᵥ codeLift S B) i = S.vertexPart i + S.elementPart i + S.edgePart i) ∧
        (∀ i, S.free i = false → codeLift S B i = 0) ∧
        (∀ K : Fin n → ℝ,
            ((∀ i, S.free i = true →
                (S.M *ᵥ K) i = S.vertexPart i + S.elementPart i + S.edgePart i) ∧
              (∀ i, S.free i = false → K i = 0)) → K = codeLift S B)) := by
  refine ⟨?_, ?_, ?_, ?_⟩
  · intro vt1 vt2
    have hA : ∀ v w : Fin 2 → ℝ, dot2 (gApply euclidJet.g v) w = dot2 v w := by
      intro v w
      simp only [gApply, dot2, euclidJet, Matrix.cons_val_zero, Matrix.cons_val_one,
        Matrix.head_cons]
      ring
    unfold angldeficit
    rw [hA, hA, hA]
    exact sub_self _
  · norm_num [elementcurv, riemann, dChristoffelFst, christoffelFst, christoffelSnd,
      euclidJet, Fin.sum_univ_two]
  · intro t nrm
    have hChr : christoffel2Contract euclidJet t t nrm = 0 := by
      norm_num [christoffel2Contract, christoffelSnd, christoffelFst, euclidJet,
        Fin.sum_univ_two]
    unfold geodesicurv
    rw [hChr]
    simp [dot2]
  · intro n S B hB
    exact ⟨fun i hi => freeInverse_mulVec_free hB S.rhs i hi,
      fun i hi => freeInverse_mulVec_boundary hB S.rhs i hi,
      fun K hK => codeLift_unique hB K ⟨hK.1, hK.2⟩⟩

/-- Counterexample to claim C2 as stated: on the concrete assembled system
`S2` the vector the code computes satisfies the free rows and vanishes on
the boundary degree of freedom, yet the mass-matrix equation FAILS for the
boundary basis function: the system is not solved for all basis functions
of the space. -/
theorem lift_all_rows_counterexample :
    IsFreeInverse S2.M S2.free invFree2 ∧
      IsCodeLift S2 (codeLift S2 invFree2) ∧
      ¬ (∀ i, (S2.M *ᵥ codeLift S2 invFree2) i = S2.rhs i) := by
  have hB : IsFreeInverse S2.M S2.free invFree2 := one_invFree2 S2 rfl rfl
  refine ⟨hB, ⟨fun i hi => freeInverse_mulVec_free hB S2.rhs i hi,
    fun i hi => freeInverse_mulVec_boundary hB S2.rhs i hi⟩, ?_⟩
  intro h
  have h1 := h 1
  simp only [S2, codeLift, LiftSystem.rhs, invFree2, Matrix.one_mulVec, Matrix.mulVec,
    Matrix.dotProduct, Fin.sum_univ_two, Matrix.of_apply, Matrix.cons_val_zero, Matrix.cons_val_one,
    Matrix.head_cons] at h1
  norm_num at h1

/-- Witness for `lift_free_rows_unique` on the concrete one-dimensional
system `S1`. -/
theorem lift_free_rows_unique_witness :
    IsFreeInverse S1.M S1.free B1 ∧
      ((∀ i, S1.free i = true →
          (S1.M *ᵥ codeLift S1 B1) i = S1.vertexPart i + S1.elementPart i + S1.edgePart i) ∧
        (∀ i, S1.free i = false → codeLift S1 B1 i = 0) ∧
        (∀ K : Fin 1 → ℝ,
            ((∀ i, S1.free i = true →
                (S1.M *ᵥ K) i = S1.vertexPart i + S1.elementPart i + S1.edgePart i) ∧
              (∀ i, S1.free i = false → K i = 0)) → K = codeLift S1 B1)) := by
  have hB : IsFreeInverse S1.M S1.free B1 := by
    refine ⟨?_, ?_, ?_⟩
    · intro i j h
      simp [S1] at h
    · intro i j hi hj
      fin_cases i <;> fin_cases j <;>
        simp [S1, B1, Matrix.mul_apply, Fin.sum_univ_one]
    · intro i j hi hj
      fin_cases i <;> fin_cases j <;>
        simp [S1, B1, Matrix.mul_apply, Fin.sum_univ_one]
  exact ⟨hB, lift_free_rows_unique.2.2.2 1 S1 B1 hB⟩

/-- Claim C9: the lifted curvature of `GeneralizedGaussCurvature` satisfies
homogeneous Dirichlet boundary conditions: the returned vector vanishes on
every boundary degree of freedom and satisfies the mass-matrix equation for
every free (interior) basis function; and there are systems where the
equation fails for a boundary basis function, so it is not enforced for all
basis functions of the space. -/
theorem lift_dirichlet_boundary :
    (∀ (n : ℕ) (S : LiftSystem n) (B : Matrix (Fin n) (Fin n) ℝ),
        IsFreeInverse S.M S.free B →
        (∀ i, S.free i = false → codeLift S B i = 0) ∧
        (∀ i, S.free i = true → (S.M *ᵥ codeLift S B) i = S.rhs i)) ∧
    (∃ (S : LiftSystem 2) (B : Matrix (Fin 2) (Fin 2) ℝ),
        IsFreeInverse S.M S.free B ∧
          ¬ (∀ i, (S.M *ᵥ codeLift S B) i = S.rhs i)) := by
  constructor
  · intro n S B hB
    exact ⟨fun i hi => freeInverse_mulVec_boundary hB S.rhs i hi,
      fun i hi => freeInverse_mulVec_free hB S.rhs i hi⟩
  · refine ⟨S9, invFree2, one_invFree2 S9 rfl rfl, ?_⟩
    intro h
    have h1 := h 1
    simp only [S9, codeLift, LiftSystem.rhs, invFree2, Matrix.one_mulVec, Matrix.mulVec,
      Matrix.dotProduct, Fin.sum_univ_two, Matrix.of_apply, Matrix.cons_val_zero, Matrix.cons_val_one,
      Matrix.head_cons] at h1
    norm_num at h1

/-- Witness for `lift_dirichlet_boundary` on the concrete system `S9`. -/
theorem lift_dirichlet_boundary_witness :
    IsFreeInverse S9.M S9.free invFree2 ∧
      ((∀ i, S9.free i = false → codeLift S9 invFree2 i = 0) ∧
        (∀ i, S9.free i = true → (S9.M *ᵥ codeLift S9 invFree2) i = S9.rhs i)) := by
  have hB : IsFreeInverse S9.M S9.free invFree2 := one_invFree2 S9 rfl rfl
  exact ⟨hB, lift_dirichlet_boundary.1 2 S9 invFree2 hB⟩

/-- Derivative of the factor `aFun s = s - s³/3`. -/
theorem hasDerivAt_aFun (s : ℝ) : HasDerivAt aFun (1 - s ^ 2) s := by
  have h := (hasDerivAt_id s).sub ((hasDerivAt_pow 3 s).div_const 3)
  have hv : (1 : ℝ) - s ^ 2 = 1 - (3 : ℕ) * s ^ (3 - 1) / 3 := by push_cast; ring
  rw [hv]
  exact h

/-- All first derivatives of `gexact` in the first parameter direction vanish
at the origin. -/
theorem deriv_gexact_x (i j : Fin 2) : deriv (fun s => gexact s 0 i j) 0 = 0 := by
  fin_cases i <;> fin_cases j
  · have h : deriv (fun s : ℝ => 1 + aFun s ^ 2) 0 = 0 := by
      rw [(((hasDerivAt_aFun 0).pow 2).const_add 1).deriv]
      norm_num [aFun]
    simpa only [gexact, Matrix.cons_val_zero] using h
  · have h : deriv (fun s : ℝ => aFun s * aFun 0) 0 = 0 := by
      rw [((hasDerivAt_aFun 0).mul_const (aFun 0)).deriv]
      norm_num [aFun]
    simpa only [gexact, Matrix.cons_val_zero, Matrix.cons_val_one, Matrix.head_cons] using h
  · have h : deriv (fun s : ℝ => aFun s * aFun 0) 0 = 0 := by
      rw [((hasDerivAt_aFun 0).mul_const (aFun 0)).deriv]
      norm_num [aFun]
    simpa only [gexact, Matrix.cons_val_zero, Matrix.cons_val_one, Matrix.head_cons] using h
  · have h : deriv (fun _ : ℝ => 1 + aFun 0 ^ 2) 0 = 0 := deriv_const _ _
    simpa only [gexact, Matrix.cons_val_one, Matrix.head_cons] using h

/-- All first derivatives of `gexact` in the second parameter direction
vanish at the origin. -/
theorem deriv_gexact_y (i j : Fin 2) : deriv (fun s => gexact 0 s i j) 0 = 0 := by
  fin_cases i <;> fin_cases j
  · have h : deriv (fun _ : ℝ => 1 + aFun 0 ^ 2) 0 = 0 := deriv_const _ _
    simpa only [gexact, Matrix.cons_val_zero] using h
  · have h : deriv (fun s : ℝ => aFun 0 * aFun s) 0 = 0 := by
      rw [((hasDerivAt_aFun 0).const_mul (aFun 0)).deriv]
      norm_num [aFun]
    simpa only [gexact, Matrix.cons_val_zero, Matrix.cons_val_one, Matrix.head_cons] using h
  · have h : deriv (fun s : ℝ => aFun 0 * aFun s) 0 = 0 := by
      rw [((hasDerivAt_aFun 0).const_mul (aFun 0)).deriv]
      norm_num [aFun]
    simpa only [gexact, Matrix.cons_val_zero, Matrix.cons_val_one, Matrix.head_cons] using h
  · have h : deriv (fun s : ℝ => 1 + aFun s ^ 2) 0 = 0 := by
      rw [(((hasDerivAt_aFun 0).pow 2).const_add 1).deriv]
      norm_num [aFun]
    simpa only [gexact, Matrix.cons_val_one, Matrix.head_cons] using h

/-- Mixed second derivative (first in `y`, then in `x`) of the off-diagonal
metric entry at the origin equals `1`. -/
theorem dderiv_gexact_xy (i j : Fin 2) (hij : i ≠ j) :
    deriv (fun s => deriv (fun t => gexact s t i j) 0) 0 = 1 := by
  have hfun : ∀ s : ℝ, deriv (fun t => gexact s t i j) 0 = aFun s := by
    intro s
    have h : deriv (fun t : ℝ => aFun s * aFun t) 0 = aFun s := by
      rw [((hasDerivAt_aFun 0).const_mul (aFun s)).deriv]
      norm_num [aFun]
    fin_cases i <;> fin_cases j <;> first
      | exact absurd rfl hij
      | simpa only [gexact, Matrix.cons_val_zero, Matrix.cons_val_one, Matrix.head_cons] using h
  have houter : deriv (fun s : ℝ => aFun s) 0 = 1 := by
    rw [(hasDerivAt_aFun 0).deriv]
    norm_num
  calc deriv (fun s => deriv (fun t => gexact s t i j) 0) 0
      = deriv (fun s : ℝ => aFun s) 0 := by
        congr 1
        funext s
        exact hfun s
    _ = 1 := houter

/-- Mixed second derivative (first in `x`, then in `y`) of the off-diagonal
metric entry at the origin equals `1`. -/
theorem dderiv_gexact_yx (i j : Fin 2) (hij : i ≠ j) :
    deriv (fun t => deriv (fun s => gexact s t i j) 0) 0 = 1 := by
  have hfun : ∀ t : ℝ, deriv (fun s => gexact s t i j) 0 = aFun t := by
    intro t
    have h : deriv (fun s : ℝ => aFun s * aFun t) 0 = aFun t := by
      rw [((hasDerivAt_aFun 0).mul_const (aFun t)).deriv]
      norm_num [aFun]
    fin_cases i <;> fin_cases j <;> first
      | exact absurd rfl hij
      | simpa only [gexact, Matrix.cons_val_zero, Matrix.cons_val_one, Matrix.head_cons] using h
  have houter : deriv (fun t : ℝ => aFun t) 0 = 1 := by
    rw [(hasDerivAt_aFun 0).deriv]
    norm_num
  calc deriv (fun t => deriv (fun s => gexact s t i j) 0) 0
      = deriv (fun t : ℝ => aFun t) 0 := by
        congr 1
        funext t
        exact hfun t
    _ = 1 := houter

/-- Second derivative of `g11` twice in the first direction vanishes at the
origin (`g11` does not depend on the first parameter). -/
theorem dderiv_gexact_xx_g11 :
    deriv (fun s => deriv (fun u => gexact u 0 1 1) s) 0 = 0 := by
  have hfun : ∀ s : ℝ, deriv (fun u => gexact u 0 1 1) s = 0 := by
    intro s
    have h : deriv (fun _ : ℝ => 1 + aFun 0 ^ 2) s = 0 := deriv_const _ _
    simpa only [gexact, Matrix.cons_val_one, Matrix.head_cons] using h
  calc deriv (fun s => deriv (fun u => gexact u 0 1 1) s) 0
      = deriv (fun _ : ℝ => (0 : ℝ)) 0 := by
        congr 1
        funext s
        exact hfun s
    _ = 0 := deriv_const _ _

/-- Second derivative of `g00` twice in the second direction vanishes at the
origin (`g00` does not depend on the second parameter). -/
theorem dderiv_gexact_yy_g00 :
    deriv (fun t => deriv (fun u => gexact 0 u 0 0) t) 0 = 0 := by
  have hfun : ∀ t : ℝ, deriv (fun u => gexact 0 u 0 0) t = 0 := by
    intro t
    have h : deriv (fun _ : ℝ => 1 + aFun 0 ^ 2) t = 0 := deriv_const _ _
    simpa only [gexact, Matrix.cons_val_zero] using h
  calc deriv (fun t => deriv (fun u => gexact 0 u 0 0) t) 0
      = deriv (fun _ : ℝ => (0 : ℝ)) 0 := by
        congr 1
        funext t
        exact hfun t
    _ = 0 := deriv_const _ _

/-- Claim C4: the intrinsic evaluator computes `K = R_0110 / det(g)` from the
Riemann operator applied to the metric jet, and nothing else — its input
`MetricJet` holds only metric data, no normal and no embedding; on the 2-jet
at the origin of the notebook's exact metric `gexact` it reproduces the
notebook's exact curvature `Kexact 0 0 = 1`.  The jet is certified against
`gexact`: its values, all its first derivatives, and every second derivative
entering `R_0110` match the Mathlib derivatives of `gexact`. -/
theorem intrinsic_curvature_metric_only :
    (∀ J : MetricJet, KhIntrinsic J = riemann J 0 1 1 0 /
        (J.g 0 0 * J.g 1 1 - J.g 0 1 * J.g 1 0)) ∧
    KhIntrinsic gexactJetOrigin = Kexact 0 0 ∧
    (∀ i j, gexactJetOrigin.g i j = gexact 0 0 i j) ∧
    (∀ i j, deriv (fun s => gexact s 0 i j) 0 = gexactJetOrigin.dg 0 i j) ∧
    (∀ i j, deriv (fun s => gexact 0 s i j) 0 = gexactJetOrigin.dg 1 i j) ∧
    deriv (fun s => deriv (fun t => gexact s t 1 0) 0) 0 = gexactJetOrigin.ddg 0 1 1 0 ∧
    deriv (fun t => deriv (fun s => gexact s t 1 0) 0) 0 = gexactJetOrigin.ddg 1 0 1 0 ∧
    deriv (fun t => deriv (fun s => gexact s t 0 1) 0) 0 = gexactJetOrigin.ddg 1 0 0 1 ∧
    deriv (fun s => deriv (fun u => gexact u 0 1 1) s) 0 = gexactJetOrigin.ddg 0 0 1 1 ∧
    deriv (fun t => deriv (fun u => gexact 0 u 0 0) t) 0 = gexactJetOrigin.ddg 1 1 0 0 := by
  refine ⟨fun J => rfl, ?_, ?_, ?_, ?_, ?_, ?_, ?_, ?_, ?_⟩
  · norm_num [KhIntrinsic, riemann, dChristoffelFst, christoffelFst, christoffelSnd, ginv2,
      det2, gexactJetOrigin, Kexact, Fin.sum_univ_two, Matrix.cons_val_zero, Matrix.cons_val_one,
      Matrix.head_cons]
  · intro i j
    fin_cases i <;> fin_cases j <;>
      norm_num [gexactJetOrigin, gexact, aFun, Matrix.cons_val_zero, Matrix.cons_val_one,
        Matrix.head_cons]
  · intro i j
    simp only [gexactJetOrigin]
    exact deriv_gexact_x i j
  · intro i j
    simp only [gexactJetOrigin]
    exact deriv_gexact_y i j
  · simpa only [gexactJetOrigin, Matrix.cons_val_zero, Matrix.cons_val_one, Matrix.head_cons]
      using dderiv_gexact_xy 1 0 (by decide)
  · simpa only [gexactJetOrigin, Matrix.cons_val_zero, Matrix.cons_val_one, Matrix.head_cons]
      using dderiv_gexact_yx 1 0 (by decide)
  · simpa only [gexactJetOrigin, Matrix.cons_val_zero, Matrix.cons_val_one, Matrix.head_cons]
      using dderiv_gexact_yx 0 1 (by decide)
  · simpa only [gexactJetOrigin, Matrix.cons_val_zero, Matrix.cons_val_one, Matrix.head_cons]
      using dderiv_gexact_xx_g11
  · simpa only [gexactJetOrigin, Matrix.cons_val_zero, Matrix.cons_val_one, Matrix.head_cons]
      using dderiv_gexact_yy_g00

/-- On a convex interior edge (signed turning angle of the normal in
`[0, π)`) with continuous `σ_μμ`, the element-boundary edge contribution of
the code equals the spec's `∠ν · σ_μμ`. -/
theorem codeEdgeTerm_eq (e : InteriorEdge) (h0 : 0 ≤ e.thetaP - e.thetaM)
    (h1 : e.thetaP - e.thetaM < π) (hs : e.sigP = e.sigM) :
    codeEdgeTerm e = specEdgeTerm e := by
  set δ := e.thetaP - e.thetaM with hdel
  have hpi := Real.pi_pos
  have hcpos : 0 < Real.cos (δ / 2) :=
    Real.cos_pos_of_mem_Ioo ⟨by linarith, by linarith⟩
  have hp1 := Real.sin_sq_add_cos_sq e.thetaP
  have hp2 := Real.sin_sq_add_cos_sq e.thetaM
  have hnn : dot3 (nuPlus e) (nuMinus e) = Real.cos δ := by
    simp only [dot3, nuPlus, nuMinus, Matrix.cons_val_zero, Matrix.cons_val_one,
      Matrix.head_cons, Matrix.cons_val_two, Matrix.tail_cons]
    rw [hdel, Real.cos_sub]
    ring
  have hmuP : muPlus e = ![Real.sin e.thetaP, -Real.cos e.thetaP, 0] := by
    funext i
    fin_cases i <;>
      simp [muPlus, cross3, nuPlus, tangPlus]
  have hmuM : muMinus e = ![-Real.sin e.thetaM, Real.cos e.thetaM, 0] := by
    funext i
    fin_cases i <;>
      simp [muMinus, cross3, nuMinus, tangMinus]
  have hcsq : Real.cos (δ / 2) ^ 2 = 1 / 2 + Real.cos δ / 2 := by
    have h := Real.cos_sq (δ / 2)
    rw [show 2 * (δ / 2) = δ by ring] at h
    exact h
  have havg : dot3 (nuAvgVec e) (nuAvgVec e) = Real.cos (δ / 2) ^ 2 := by
    simp only [dot3, nuAvgVec, nuPlus, nuMinus, Matrix.cons_val_zero, Matrix.cons_val_one,
      Matrix.head_cons, Matrix.cons_val_two, Matrix.tail_cons]
    rw [hcsq, hdel, Real.cos_sub]
    linear_combination (1 / 4) * hp1 + (1 / 4) * hp2
  have hsqrt : Real.sqrt (dot3 (nuAvgVec e) (nuAvgVec e)) = Real.cos (δ / 2) := by
    rw [havg, Real.sqrt_sq hcpos.le]
  have hsin2 : Real.sin δ = 2 * Real.sin (δ / 2) * Real.cos (δ / 2) := by
    have h := Real.sin_two_mul (δ / 2)
    rw [show 2 * (δ / 2) = δ by ring] at h
    exact h
  have hdotP : dot3 (nuAvgVec e) (muPlus e) = Real.sin δ / 2 := by
    rw [hmuP]
    simp only [dot3, nuAvgVec, nuPlus, nuMinus, Matrix.cons_val_zero, Matrix.cons_val_one,
      Matrix.head_cons, Matrix.cons_val_two, Matrix.tail_cons]
    rw [hdel, Real.sin_sub]
    ring
  have hdotM : dot3 (nuAvgVec e) (muMinus e) = Real.sin δ / 2 := by
    rw [hmuM]
    simp only [dot3, nuAvgVec, nuPlus, nuMinus, Matrix.cons_val_zero, Matrix.cons_val_one,
      Matrix.head_cons, Matrix.cons_val_two, Matrix.tail_cons]
    rw [hdel, Real.sin_sub]
    ring
  have hnd : ∀ w : Fin 3 → ℝ, dot3 (normalize3 (nuAvgVec e)) w =
      dot3 (nuAvgVec e) w / Real.sqrt (dot3 (nuAvgVec e) (nuAvgVec e)) := by
    intro w
    simp only [normalize3, dot3]
    ring
  have hvalP : dot3 (normalize3 (nuAvgVec e)) (muPlus e) = Real.sin (δ / 2) := by
    rw [hnd, hdotP, hsqrt, hsin2]
    field_simp
    ring
  have hvalM : dot3 (normalize3 (nuAvgVec e)) (muMinus e) = Real.sin (δ / 2) := by
    rw [hnd, hdotM, hsqrt, hsin2]
    field_simp
    ring
  have harc : Real.arccos (Real.sin (δ / 2)) = π / 2 - δ / 2 := by
    rw [Real.arccos_eq_pi_div_two_sub_arcsin, Real.arcsin_sin (by linarith) (by linarith)]
  unfold codeEdgeTerm specEdgeTerm
  rw [hvalP, hvalM, harc, hnn, Real.arccos_cos h0 h1.le, hs]
  ring

/-- Claim C6 (amended): on every mesh all of whose interior edges are convex
(the signed turning angle of the normal across the edge lies in `[0, π)`),
and for every test tensor with continuous `σ_μμ`, the element-boundary form
implemented by `GeneralizedWeingarten` equals the spec's per-edge form
`Σ_T ∫_T ∇ν_T:σ + Σ_E ∠ν·σ_μμ`. -/
theorem weingarten_forms_agree_convex (m : WeingartenMesh)
    (h : ∀ e, 0 ≤ (m.edges e).thetaP - (m.edges e).thetaM ∧
        (m.edges e).thetaP - (m.edges e).thetaM < π ∧
        (m.edges e).sigP = (m.edges e).sigM) :
    codeWeingartenForm m = specWeingartenForm m := by
  unfold codeWeingartenForm specWeingartenForm
  congr 1
  exact Finset.sum_congr rfl fun e _ =>
    codeEdgeTerm_eq (m.edges e) (h e).1 (h e).2.1 (h e).2.2

/-- Witness for `weingarten_forms_agree_convex` on the one-edge surface with
a flat edge. -/
theorem weingarten_forms_agree_witness :
    (∀ e, 0 ≤ (Wok.edges e).thetaP - (Wok.edges e).thetaM ∧
        (Wok.edges e).thetaP - (Wok.edges e).thetaM < π ∧
        (Wok.edges e).sigP = (Wok.edges e).sigM) ∧
      codeWeingartenForm Wok = specWeingartenForm Wok := by
  have h : ∀ e : Fin 1, 0 ≤ (Wok.edges e).thetaP - (Wok.edges e).thetaM ∧
      (Wok.edges e).thetaP - (Wok.edges e).thetaM < π ∧
      (Wok.edges e).sigP = (Wok.edges e).sigM := by
    intro e
    refine ⟨?_, ?_, rfl⟩
    · show (0 : ℝ) ≤ flatEdge.thetaP - flatEdge.thetaM
      norm_num [flatEdge]
    · show flatEdge.thetaP - flatEdge.thetaM < π
      have : flatEdge.thetaP - flatEdge.thetaM = 0 := by norm_num [flatEdge]
      rw [this]
      exact Real.pi_pos
  exact ⟨h, weingarten_forms_agree_convex Wok h⟩

/-- Counterexample to claim C6 as stated: on the one-edge surface whose only
edge is concave, the test tensor has continuous `σ_μμ`, yet the
element-boundary form of the code and the spec's per-edge form differ (they
are `-π/2` and `π/2`: the code computes the signed turning angle while
`acos(ν_+·ν_-)` is unsigned). -/
theorem weingarten_edge_form_counterexample :
    concaveEdge.sigP = concaveEdge.sigM ∧
      codeWeingartenForm Wcex ≠ specWeingartenForm Wcex := by
  refine ⟨rfl, ?_⟩
  have hpi := Real.pi_pos
  have hs2 : Real.sqrt 2 * Real.sqrt 2 = 2 := Real.mul_self_sqrt (by norm_num)
  have hs2pos : 0 < Real.sqrt 2 := Real.sqrt_pos.mpr (by norm_num)
  have hsqrt_half : Real.sqrt (1 / 2 : ℝ) = Real.sqrt 2 / 2 := by
    rw [show (1 / 2 : ℝ) = (Real.sqrt 2 / 2) ^ 2 by
        rw [div_pow, Real.sq_sqrt (by norm_num : (0 : ℝ) ≤ 2)]; norm_num]
    exact Real.sqrt_sq (by positivity)
  have hhalf : (1 / 2 : ℝ) / (Real.sqrt 2 / 2) = Real.sqrt 2 / 2 := by
    rw [div_eq_div_iff (by positivity) (by norm_num)]
    nlinarith [hs2]
  have hdot : dot3 (nuPlus concaveEdge) (nuMinus concaveEdge) = 0 := by
    simp [dot3, nuPlus, nuMinus, concaveEdge, Real.cos_pi_div_two, Real.sin_pi_div_two]
  have hterm : specEdgeTerm concaveEdge = π / 2 := by
    unfold specEdgeTerm
    rw [hdot, Real.arccos_zero]
    norm_num [concaveEdge]
  have hsum1 : (∑ T, Wcex.elemTerm T) = 0 := by
    show (∑ T : Fin 0, Wcex.elemTerm T) = 0
    simp
  have hsum2 : (∑ e, specEdgeTerm (Wcex.edges e)) = specEdgeTerm concaveEdge := by
    show (∑ e : Fin 1, specEdgeTerm (Wcex.edges e)) = specEdgeTerm concaveEdge
    simp only [show ∀ e : Fin 1, Wcex.edges e = concaveEdge from fun _ => rfl]
    rw [Fin.sum_univ_one]
  have hspec : specWeingartenForm Wcex = π / 2 := by
    unfold specWeingartenForm
    rw [hsum1, hsum2, hterm, zero_add]
  have havgv : nuAvgVec concaveEdge = ![1 / 2, 1 / 2, 0] := by
    funext i
    fin_cases i <;>
      norm_num [nuAvgVec, nuPlus, nuMinus, concaveEdge, Real.cos_pi_div_two,
        Real.sin_pi_div_two]
  have hdd : dot3 (nuAvgVec concaveEdge) (nuAvgVec concaveEdge) = 1 / 2 := by
    rw [havgv]; norm_num [dot3]
  have hnorm : normalize3 (nuAvgVec concaveEdge) = ![Real.sqrt 2 / 2, Real.sqrt 2 / 2, 0] := by
    funext i
    simp only [normalize3, hdd, hsqrt_half]
    rw [havgv]
    fin_cases i
    · simpa using hhalf
    · simpa using hhalf
    · simp
  have hmuP : muPlus concaveEdge = ![0, -1, 0] := by
    funext i
    fin_cases i <;> simp [muPlus, cross3, nuPlus, tangPlus, concaveEdge]
  have hmuM : muMinus concaveEdge = ![-1, 0, 0] := by
    funext i
    fin_cases i <;>
      simp [muMinus, cross3, nuMinus, tangMinus, concaveEdge, Real.cos_pi_div_two,
        Real.sin_pi_div_two]
  have harc : Real.arccos (-(Real.sqrt 2 / 2)) = 3 * π / 4 := by
    rw [show Real.sqrt 2 / 2 = Real.cos (π / 4) from Real.cos_pi_div_four.symm]
    rw [← Real.cos_pi_sub, Real.arccos_cos (by linarith) (by linarith)]
    ring
  have hdP : dot3 (normalize3 (nuAvgVec concaveEdge)) (muPlus concaveEdge) =
      -(Real.sqrt 2 / 2) := by
    rw [hnorm, hmuP]; norm_num [dot3]
  have hdM : dot3 (normalize3 (nuAvgVec concaveEdge)) (muMinus concaveEdge) =
      -(Real.sqrt 2 / 2) := by
    rw [hnorm, hmuM]; norm_num [dot3]
  have hcterm : codeEdgeTerm concaveEdge = -(π / 2) := by
    unfold codeEdgeTerm
    rw [hdP, hdM, harc]
    norm_num [concaveEdge]
    ring
  have hcsum1 : (∑ T, Wcex.elemTerm T) = 0 := by
    show (∑ T : Fin 0, Wcex.elemTerm T) = 0
    simp
  have hcsum2 : (∑ e, codeEdgeTerm (Wcex.edges e)) = codeEdgeTerm concaveEdge := by
    show (∑ e : Fin 1, codeEdgeTerm (Wcex.edges e)) = codeEdgeTerm concaveEdge
    simp only [show ∀ e : Fin 1, Wcex.edges e = concaveEdge from fun _ => rfl]
    rw [Fin.sum_univ_one]
  have hcode : codeWeingartenForm Wcex = -(π / 2) := by
    unfold codeWeingartenForm
    rw [hcsum1, hcsum2, hcterm, zero_add]
  rw [hcode, hspec]
  intro h
  linarith
